import Mathlib

/-!
Verification of the Current transactional storage layer
(`TransactionalStorage/storage.h`, `Storage/transaction.h`).

The C++ containers (`Vector`, `OrderedDictionary`, `LightweightMatrix`)
keep their state in `std::vector` / `std::map` members.  We embed
`std::map<K, V>` as an association list with unique keys: `alookup`
is `map::find`, `ainsert` is the `map::operator[] = v` write path
(overwrite in place, append when absent) and `aerase` is `map::erase`
(removes the unique entry for the key).
-/

namespace CurrentStorage

section AList

variable {κ β : Type} [DecidableEq κ]

/-- `std::map::find`: the value stored under key `k`, if any. -/
def alookup (k : κ) : List (κ × β) → Option β
  | [] => none
  | (k2, v) :: t => if k2 = k then some v else alookup k t

/-- The `std::map::operator[] = v` write path: overwrite the entry for `k`
in place, append a fresh entry when `k` is absent. -/
def ainsert (k : κ) (v : β) : List (κ × β) → List (κ × β)
  | [] => [(k, v)]
  | (k2, v2) :: t => if k2 = k then (k, v) :: t else (k2, v2) :: ainsert k v t

/-- `std::map::erase(k)`: remove the entry for `k` (a no-op when absent). -/
def aerase (k : κ) : List (κ × β) → List (κ × β)
  | [] => []
  | (k2, v2) :: t => if k2 = k then t else (k2, v2) :: aerase k t

/-- The keys of the map, in storage order. -/
def keysOf (m : List (κ × β)) : List κ := m.map Prod.fst

/-- `std::map` holds at most one entry per key; our lists maintain this. -/
def NodupKeys (m : List (κ × β)) : Prop := (keysOf m).Nodup

end AList

/-!
## The container storages and APIs

`Storage` bundles the in-memory members of the three container kinds that
can share one policy `Instance`:
* `vec` is `VectorStorage::vector_`,
* `dict` is `OrderedDictionaryStorage::map_`,
* `fwd`/`transposed`/`mat` are `LightweightMatrixStorage::forward_`,
  `::transposed_` and `::map_` (the owned cell; the C++ indices hold
  `const T*` pointers into `map_`, which we embed as the cell value).
-/

structure Storage (α K T R C X : Type) where
  vec : List α
  dict : List (K × T)
  fwd : List (R × List (C × X))
  transposed : List (C × List (R × X))
  mat : List ((R × C) × X)
deriving DecidableEq

section Containers

variable {α K T R C X : Type} [DecidableEq K] [DecidableEq R] [DecidableEq C]
variable (keyOf : T → K) (rowOf : X → R) (colOf : X → C)

/-- A freshly constructed set of containers: everything empty. -/
def emptyStorage : Storage α K T R C X := ⟨[], [], [], [], []⟩

/-- `OrderedDictionaryStorage::DoInsert`: `map_[GetKey(object)] = object`. -/
def DoInsert (t : T) (m : List (K × T)) : List (K × T) :=
  ainsert (keyOf t) t m

/-- The two-level index write in `LightweightMatrixStorage::DoAdd`:
`index_[a][b] = &cell` (default-constructing the inner map when absent). -/
def idxAdd {κ1 κ2 γ : Type} [DecidableEq κ1] [DecidableEq κ2]
    (a : κ1) (b : κ2) (x : γ) (m : List (κ1 × List (κ2 × γ))) :
    List (κ1 × List (κ2 × γ)) :=
  ainsert a (ainsert b x ((alookup a m).getD [])) m

/-- The two-level index removal in `LightweightMatrixStorage::DoDelete`:
`index_[a].erase(b); if (index_[a].empty()) index_.erase(a);`.
(`operator[]` default-inserts an empty inner map when `a` is absent, which
the `if` immediately erases again, so the absent case is the `aerase a`
branch with an unchanged map.) -/
def idxDel {κ1 κ2 γ : Type} [DecidableEq κ1] [DecidableEq κ2]
    (a : κ1) (b : κ2) (m : List (κ1 × List (κ2 × γ))) :
    List (κ1 × List (κ2 × γ)) :=
  let inner2 := aerase b ((alookup a m).getD [])
  if inner2.isEmpty then aerase a m else ainsert a inner2 m

/-- Membership of `(a, b)` in a two-level index. -/
def idxHas {κ1 κ2 γ : Type} [DecidableEq κ1] [DecidableEq κ2]
    (m : List (κ1 × List (κ2 × γ))) (a : κ1) (b : κ2) : Bool :=
  (alookup b ((alookup a m).getD [])).isSome

/-- Membership of `(r, c)` in the matrix primary map. -/
def matHas (m : List ((R × C) × X)) (r : R) (c : C) : Bool :=
  (alookup (r, c) m).isSome

/-- `LightweightMatrixStorage::DoAdd`: store the owned cell in `map_`,
then point both indices at it. -/
def DoAdd (x : X) (s : Storage α K T R C X) : Storage α K T R C X :=
  { s with
    mat := ainsert (rowOf x, colOf x) x s.mat
    fwd := idxAdd (rowOf x) (colOf x) x s.fwd
    transposed := idxAdd (colOf x) (rowOf x) x s.transposed }

/-- `LightweightMatrixStorage::DoDelete`: drop `(row, col)` from both
indices (erasing an inner map once emptied), then erase the owned cell. -/
def DoDelete (r : R) (c : C) (s : Storage α K T R C X) : Storage α K T R C X :=
  { s with
    fwd := idxDel r c s.fwd
    transposed := idxDel c r s.transposed
    mat := aerase (r, c) s.mat }

/-!
## Journal entries and live operations

A journal line is `<timestamp>\t<hook-name>\t<payload>`.  The timestamp is
recorded for audit only and never consulted on replay, and the codec is
assumed to round-trip payloads faithfully, so an `Entry` carries the typed
payload under its hook name (the constructor).  The vector hooks carry the
index argument of `PersistPushBack(size, x)` / `PersistPopBack(size)`.
-/

inductive Entry (α K T R C X : Type) where
  | pushBackLine (idx : Nat) (x : α)
  | popBackLine (idx : Nat)
  | insertLine (t : T)
  | eraseLine (k : K)
  | addLine (x : X)
  | deleteLine (r : R) (c : C)
deriving DecidableEq

/-- One mutating call on one of the three container APIs. -/
inductive Op (α K T R C X : Type) where
  | pushBack (x : α)
  | popBack
  | insert (t : T)
  | erase (k : K)
  | add (x : X)
  | delete (r : R) (c : C)
deriving DecidableEq

/-- How a mutating API call ends: normally, with the
`CannotPopBackFromEmptyVectorException`, or with the persister call
itself throwing. -/
inductive OpOutcome where
  | ok
  | cannotPopBackFromEmptyVector
  | persistFailed
deriving DecidableEq

/-- One mutating API call (`VectorAPI::PushBack/PopBack`,
`OrderedDictionaryAPI::Insert/Erase`, `LightweightMatrixAPI::Add/Delete`)
against a persister whose `Persist*` methods either atomically append one
journal line (`persistOk = true`) or throw (`persistOk = false`).
Each method persists first and mutates second; `PopBack` alone checks the
in-memory precondition before touching the persister. -/
def apiStep (persistOk : Bool) (op : Op α K T R C X) (s : Storage α K T R C X)
    (j : List (Entry α K T R C X)) :
    Storage α K T R C X × List (Entry α K T R C X) × OpOutcome :=
  match op with
  | .pushBack x =>
      if persistOk then
        ({ s with vec := s.vec ++ [x] }, j ++ [.pushBackLine s.vec.length x], .ok)
      else (s, j, .persistFailed)
  | .popBack =>
      if s.vec.isEmpty then (s, j, .cannotPopBackFromEmptyVector)
      else if persistOk then
        ({ s with vec := s.vec.dropLast }, j ++ [.popBackLine s.vec.length], .ok)
      else (s, j, .persistFailed)
  | .insert t =>
      if persistOk then
        ({ s with dict := DoInsert keyOf t s.dict }, j ++ [.insertLine t], .ok)
      else (s, j, .persistFailed)
  | .erase k =>
      if persistOk then
        ({ s with dict := aerase k s.dict }, j ++ [.eraseLine k], .ok)
      else (s, j, .persistFailed)
  | .add x =>
      if persistOk then
        (DoAdd rowOf colOf x s, j ++ [.addLine x], .ok)
      else (s, j, .persistFailed)
  | .delete r c =>
      if persistOk then
        (DoDelete r c s, j ++ [.deleteLine r c], .ok)
      else (s, j, .persistFailed)

/-- Replay dispatch of one journal line to the hook registered by
`ReplayFromAndAppendToFile`'s persisters.  The hooks mutate the storage
directly and never call back into the persister; a failed `assert`
(index mismatch, pop from empty) is `none` (fatal). -/
def replayEntry (e : Entry α K T R C X) (s : Storage α K T R C X) :
    Option (Storage α K T R C X) :=
  match e with
  | .pushBackLine idx x =>
      if idx = s.vec.length then some { s with vec := s.vec ++ [x] } else none
  | .popBackLine idx =>
      if idx = s.vec.length ∧ s.vec.isEmpty = false then
        some { s with vec := s.vec.dropLast }
      else none
  | .insertLine t => some { s with dict := DoInsert keyOf t s.dict }
  | .eraseLine k => some { s with dict := aerase k s.dict }
  | .addLine x => some (DoAdd rowOf colOf x s)
  | .deleteLine r c => some (DoDelete r c s)

/-- The replay loop of `ReplayFromAndAppendToFile::Instance::Run`:
dispatch every journal line in file order; any failed assert is fatal. -/
def replay : List (Entry α K T R C X) → Storage α K T R C X →
    Option (Storage α K T R C X)
  | [], s => some s
  | e :: rest, s =>
      match replayEntry keyOf rowOf colOf e s with
      | some s2 => replay rest s2
      | none => none

/-- A sequence of live API calls through a working durable persister,
starting from storage `s` with journal tail `j`; `none` as soon as one
call does not succeed. -/
def runOps : List (Op α K T R C X) → Storage α K T R C X →
    List (Entry α K T R C X) →
    Option (Storage α K T R C X × List (Entry α K T R C X))
  | [], s, j => some (s, j)
  | op :: ops, s, j =>
      match apiStep keyOf rowOf colOf true op s j with
      | (s2, j2, .ok) => runOps ops s2 j2
      | (_, _, .cannotPopBackFromEmptyVector) => none
      | (_, _, .persistFailed) => none

/-- The number of `PushBack` calls in an operation sequence. -/
def countPushes : List (Op α K T R C X) → Nat
  | [] => 0
  | .pushBack _ :: ops => countPushes ops + 1
  | _ :: ops => countPushes ops

/-- The number of `PopBack` calls in an operation sequence. -/
def countPops : List (Op α K T R C X) → Nat
  | [] => 0
  | .popBack :: ops => countPops ops + 1
  | _ :: ops => countPops ops

end Containers

section IndexDefs

variable {κ1 κ2 γ : Type} [DecidableEq κ1] [DecidableEq κ2]

/-- The inner maps of a two-level index are well-formed `std::map`s and
never left empty (an emptied inner map is erased from the outer map). -/
def InnerOk (m : List (κ1 × List (κ2 × γ))) : Prop :=
  ∀ p ∈ m, NodupKeys p.2 ∧ p.2 ≠ []

end IndexDefs

section MatrixInvariantDefs

variable {α K T R C X : Type} [DecidableEq K] [DecidableEq R] [DecidableEq C]
variable (keyOf : T → K) (rowOf : X → R) (colOf : X → C)

/-- The consistency invariant of `LightweightMatrixStorage`: the primary
map and both indices are well-formed `std::map`s, no inner index map is
left empty, and a pair `(r, c)` is reachable through `forward_` (resp.
`transposed_`) exactly when `map_` owns the cell `(r, c)`. -/
structure MatrixInvariant (s : Storage α K T R C X) : Prop where
  mat_nodup : NodupKeys s.mat
  fwd_nodup : NodupKeys s.fwd
  tr_nodup : NodupKeys s.transposed
  fwd_inner : InnerOk s.fwd
  tr_inner : InnerOk s.transposed
  fwd_mat : ∀ r c, idxHas s.fwd r c = matHas s.mat r c
  tr_mat : ∀ r c, idxHas s.transposed c r = matHas s.mat r c

end MatrixInvariantDefs

/-!
## The durable `Instance` lifecycle

`ReplayFromAndAppendToFile::Instance` keeps a `run_` flag, an
`output_file_` handle (null until `Run()` re-arms the file for append)
and a name-to-callback `hooks_` table.  A hook takes the raw payload and
mutates its captured storage, possibly failing an assert (`none`).
A C++ `assert` failure is modelled as the `none` result: a fatal,
non-recoverable condition.  The `assert(hook)` on registration is
enforced by the Lean function type (a hook value always exists).
-/

section Lifecycle

variable {P σ : Type}

/-- One parsed journal line: `<timestamp>\t<hook-name>\t<payload>`. -/
structure Line (P : Type) where
  ts : Nat
  hook : String
  payload : P

/-- `ReplayFromAndAppendToFile::Instance`. -/
structure Instance (P σ : Type) where
  run_ : Bool
  outputOpen : Bool
  hooks_ : List (String × (P → σ → Option σ))

/-- A fresh `Instance(filename)`: not run, no output file, no hooks. -/
def Instance.fresh : Instance P σ := ⟨false, false, []⟩

/-- `Instance::RegisterHook`: `auto& placeholder = hooks_[hook_name];
assert(!placeholder); placeholder = hook;` — fatal when the name is
already taken, otherwise store the hook. -/
def RegisterHook (hookName : String) (hk : P → σ → Option σ)
    (i : Instance P σ) : Option (Instance P σ) :=
  match alookup hookName i.hooks_ with
  | some _ => none
  | none => some { i with hooks_ := ainsert hookName hk i.hooks_ }

/-- The replay loop inside `Instance::Run`: look every line's hook name up
in `hooks_` (`assert(hook != hooks_.end())`) and dispatch the payload. -/
def dispatchLines : List (Line P) → List (String × (P → σ → Option σ)) →
    σ → Option σ
  | [], _, s => some s
  | l :: ls, hooks, s =>
      match alookup l.hook hooks with
      | none => none
      | some hk =>
          match hk l.payload s with
          | none => none
          | some s2 => dispatchLines ls hooks s2

/-- `Instance::Run` over the journal's parsed lines and the storage state
the registered hooks write to: `assert(!run_); run_ = true;
assert(!output_file_);` then replay every line, then reopen the file for
append (`outputOpen := true`). -/
def Instance.Run (i : Instance P σ) (lines : List (Line P)) (s : σ) :
    Option (Instance P σ × σ) :=
  match i.run_ with
  | true => none
  | false =>
      match i.outputOpen with
      | true => none
      | false =>
          match dispatchLines lines i.hooks_ s with
          | none => none
          | some s2 => some ({ i with run_ := true, outputOpen := true }, s2)

end Lifecycle

/-!
## The transaction batch record

`CURRENT_STRUCT(TransactionMeta)` in `Storage/transaction.h` is a plain
serializable record: three fields and a default constructor initializing
both timestamps to zero.  No constructor, member or macro in the source
validates `end_us` against `begin_us`.
-/

/-- `TransactionMeta`: `begin_us`, `end_us`
(`std::chrono::microseconds`), `fields`. -/
structure TransactionMeta where
  begin_us : Int
  end_us : Int
  fields : List (String × String)
deriving DecidableEq

/-- `CURRENT_DEFAULT_CONSTRUCTOR(TransactionMeta) : begin_us(0), end_us(0)`. -/
def TransactionMeta.mkDefault : TransactionMeta :=
  { begin_us := 0, end_us := 0, fields := [] }

/-- Construction of a `TransactionMeta` with given field values: the
source exposes the fields directly (`CURRENT_FIELD`), so construction
stores the arguments verbatim, with no validation code anywhere. -/
def mkTransactionMeta (b e : Int) (f : List (String × String)) :
    TransactionMeta :=
  { begin_us := b, end_us := e, fields := f }

/-- `Transaction<T>`: one meta record plus the ordered mutation list. -/
structure Transaction (M : Type) where
  meta : TransactionMeta
  mutations : List M

/-- Concrete instantiation used by the witnesses: `Nat` data everywhere;
a dictionary record is its own key, a matrix cell is its `(row, col)`. -/
abbrev WStorage : Type := Storage Nat Nat Nat Nat Nat (Nat × Nat)

/-- Witness key extractor. -/
def wKeyOf : Nat → Nat := fun k => k

/-- Witness row extractor. -/
def wRowOf : Nat × Nat → Nat := Prod.fst

/-- Witness column extractor. -/
def wColOf : Nat × Nat → Nat := Prod.snd

/-- Witness fresh storage. -/
def wEmpty : WStorage := emptyStorage

/-- Witness operation sequence for C1. -/
def wOpsC1 : List (Op Nat Nat Nat Nat Nat (Nat × Nat)) :=
  [.pushBack 7, .pushBack 9, .popBack, .insert 5, .erase 5,
   .add (1, 2), .delete 1 2]

/-- Witness journal for C1: what `wOpsC1` writes from a fresh instance. -/
def wJournalC1 : List (Entry Nat Nat Nat Nat Nat (Nat × Nat)) :=
  [.pushBackLine 0 7, .pushBackLine 1 9, .popBackLine 2, .insertLine 5,
   .eraseLine 5, .addLine (1, 2), .deleteLine 1 2]

/-- Hook used by the C8 witness. -/
def constHook : Nat → Nat → Option Nat := fun _ s => some s

/-- Hook name used by the C8 witness. -/
def wHookName : String := "v.push_back"

section AListTheorems

variable {κ β : Type} [DecidableEq κ]

theorem alookup_ainsert_self (k : κ) (v : β) (m : List (κ × β)) :
    alookup k (ainsert k v m) = some v := by
  induction m with
  | nil => simp [ainsert, alookup]
  | cons p t ih =>
      obtain ⟨k2, v2⟩ := p
      by_cases h : k2 = k
      · simp [ainsert, alookup, h]
      · simp [ainsert, alookup, h, ih]

theorem alookup_ainsert_ne {k k2 : κ} (v : β) (m : List (κ × β)) (h : k2 ≠ k) :
    alookup k2 (ainsert k v m) = alookup k2 m := by
  have hne : ¬k = k2 := fun hk => h hk.symm
  induction m with
  | nil => simp [ainsert, alookup, hne]
  | cons p t ih =>
      obtain ⟨k3, v3⟩ := p
      by_cases h3 : k3 = k
      · simp [ainsert, alookup, h3, hne]
      · by_cases h4 : k3 = k2
        · simp [ainsert, alookup, h3, h4, h]
        · simp [ainsert, alookup, h3, h4, ih]

theorem alookup_aerase_ne {k k2 : κ} (m : List (κ × β)) (h : k2 ≠ k) :
    alookup k2 (aerase k m) = alookup k2 m := by
  have hne : ¬k = k2 := fun hk => h hk.symm
  induction m with
  | nil => simp [aerase]
  | cons p t ih =>
      obtain ⟨k3, v3⟩ := p
      by_cases h3 : k3 = k
      · simp [aerase, alookup, h3, hne]
      · by_cases h4 : k3 = k2
        · simp [aerase, alookup, h3, h4, h]
        · simp [aerase, alookup, h3, h4, ih]

theorem alookup_eq_none_of_not_mem_keys {k : κ} {m : List (κ × β)}
    (h : k ∉ keysOf m) : alookup k m = none := by
  induction m with
  | nil => simp [alookup]
  | cons p t ih =>
      obtain ⟨k2, v2⟩ := p
      simp only [keysOf, List.map_cons, List.mem_cons] at h
      push_neg at h
      have hne : ¬k2 = k := fun hk => h.1 hk.symm
      simp [alookup, hne, ih (by simpa [keysOf] using h.2)]

theorem alookup_aerase_self {k : κ} {m : List (κ × β)} (h : NodupKeys m) :
    alookup k (aerase k m) = none := by
  induction m with
  | nil => simp [aerase, alookup]
  | cons p t ih =>
      obtain ⟨k2, v2⟩ := p
      simp only [NodupKeys, keysOf, List.map_cons, List.nodup_cons] at h
      by_cases h2 : k2 = k
      · have hk : k ∉ keysOf t := by
          simpa [keysOf, h2] using h.1
        simp [aerase, h2, alookup_eq_none_of_not_mem_keys hk]
      · simp [aerase, alookup, h2, ih h.2]

theorem aerase_of_alookup_eq_none {k : κ} {m : List (κ × β)}
    (h : alookup k m = none) : aerase k m = m := by
  induction m with
  | nil => rfl
  | cons p t ih =>
      obtain ⟨k2, v2⟩ := p
      by_cases h2 : k2 = k
      · simp [alookup, h2] at h
      · simp only [alookup, if_neg h2] at h
        simp [aerase, h2, ih h]

theorem ainsert_of_alookup_eq_some {k : κ} {v : β} {m : List (κ × β)}
    (h : alookup k m = some v) : ainsert k v m = m := by
  induction m with
  | nil => simp [alookup] at h
  | cons p t ih =>
      obtain ⟨k2, v2⟩ := p
      by_cases h2 : k2 = k
      · subst h2
        simp [alookup] at h
        subst h
        simp [ainsert]
      · simp only [alookup, if_neg h2] at h
        simp [ainsert, h2, ih h]

theorem keysOf_ainsert (k : κ) (v : β) (m : List (κ × β)) :
    keysOf (ainsert k v m) = if k ∈ keysOf m then keysOf m else keysOf m ++ [k] := by
  induction m with
  | nil => simp [ainsert, keysOf]
  | cons p t ih =>
      obtain ⟨k2, v2⟩ := p
      by_cases h2 : k2 = k
      · simp [ainsert, keysOf, h2]
      · have hne : ¬k = k2 := fun hk => h2 hk.symm
        simp only [ainsert, if_neg h2, keysOf, List.map_cons]
        have ih2 := ih
        simp only [keysOf] at ih2
        by_cases hm : k ∈ List.map Prod.fst t
        · simp [ih2, hm, hne]
        · simp [ih2, hm, hne]

theorem nodupKeys_ainsert {m : List (κ × β)} (k : κ) (v : β) (h : NodupKeys m) :
    NodupKeys (ainsert k v m) := by
  unfold NodupKeys
  rw [keysOf_ainsert]
  by_cases hm : k ∈ keysOf m
  · simpa [hm] using h
  · simp only [if_neg hm, List.nodup_append]
    exact ⟨h, List.nodup_singleton k, by simpa using hm⟩

theorem mem_aerase {k : κ} {p : κ × β} {m : List (κ × β)}
    (h : p ∈ aerase k m) : p ∈ m := by
  induction m with
  | nil => simpa [aerase] using h
  | cons q t ih =>
      obtain ⟨k2, v2⟩ := q
      by_cases h2 : k2 = k
      · simp only [aerase, if_pos h2] at h
        exact List.mem_cons_of_mem _ h
      · simp only [aerase, if_neg h2, List.mem_cons] at h
        rcases h with h | h
        · exact h ▸ List.mem_cons_self _ _
        · exact List.mem_cons_of_mem _ (ih h)

theorem keysOf_aerase_sublist (k : κ) (m : List (κ × β)) :
    (keysOf (aerase k m)).Sublist (keysOf m) := by
  induction m with
  | nil => simp [aerase, keysOf]
  | cons p t ih =>
      obtain ⟨k2, v2⟩ := p
      by_cases h2 : k2 = k
      · simpa [aerase, h2, keysOf] using List.sublist_cons_self k2 (keysOf t)
      · simpa [aerase, h2, keysOf] using ih

theorem nodupKeys_aerase {m : List (κ × β)} (k : κ) (h : NodupKeys m) :
    NodupKeys (aerase k m) :=
  (keysOf_aerase_sublist k m).nodup h

theorem mem_ainsert {k : κ} {v : β} {p : κ × β} {m : List (κ × β)}
    (h : p ∈ ainsert k v m) : p = (k, v) ∨ p ∈ m := by
  induction m with
  | nil => simpa [ainsert] using h
  | cons q t ih =>
      obtain ⟨k2, v2⟩ := q
      by_cases h2 : k2 = k
      · simp only [ainsert, if_pos h2, List.mem_cons] at h
        rcases h with h | h
        · exact Or.inl h
        · exact Or.inr (List.mem_cons_of_mem _ h)
      · simp only [ainsert, if_neg h2, List.mem_cons] at h
        rcases h with h | h
        · exact Or.inr (h ▸ List.mem_cons_self _ _)
        · rcases ih h with h3 | h3
          · exact Or.inl h3
          · exact Or.inr (List.mem_cons_of_mem _ h3)

theorem alookup_mem {k : κ} {v : β} {m : List (κ × β)}
    (h : alookup k m = some v) : (k, v) ∈ m := by
  induction m with
  | nil => simp [alookup] at h
  | cons p t ih =>
      obtain ⟨k2, v2⟩ := p
      by_cases h2 : k2 = k
      · simp only [alookup, if_pos h2, Option.some.injEq] at h
        simp [← h, ← h2]
      · simp only [alookup, if_neg h2] at h
        exact List.mem_cons_of_mem _ (ih h)

theorem mem_keysOf_ainsert_self (k : κ) (v : β) (m : List (κ × β)) :
    k ∈ keysOf (ainsert k v m) := by
  rw [keysOf_ainsert]
  by_cases hm : k ∈ keysOf m <;> simp [hm]

theorem length_ainsert (k : κ) (v : β) (m : List (κ × β)) :
    (ainsert k v m).length =
      if k ∈ keysOf m then m.length else m.length + 1 := by
  induction m with
  | nil => simp [ainsert, keysOf]
  | cons p t ih =>
      obtain ⟨k2, v2⟩ := p
      by_cases h2 : k2 = k
      · simp [ainsert, keysOf, h2]
      · have hne : ¬k = k2 := fun hk => h2 hk.symm
        simp only [ainsert, if_neg h2, List.length_cons, keysOf, List.map_cons,
          List.mem_cons, hne, false_or]
        have ih2 := ih
        simp only [keysOf] at ih2
        rw [ih2]
        by_cases hm : k ∈ List.map Prod.fst t <;> simp [hm]

theorem ainsert_ne_nil (k : κ) (v : β) (m : List (κ × β)) :
    ainsert k v m ≠ [] := by
  cases m with
  | nil => simp [ainsert]
  | cons p t =>
      obtain ⟨k2, v2⟩ := p
      by_cases h2 : k2 = k <;> simp [ainsert, h2]

theorem aerase_eq_nil {k : κ} {m : List (κ × β)} (h : aerase k m = []) :
    m = [] ∨ ∃ v, m = [(k, v)] := by
  cases m with
  | nil => exact Or.inl rfl
  | cons p t =>
      obtain ⟨k2, v2⟩ := p
      by_cases h2 : k2 = k
      · simp only [aerase, if_pos h2] at h
        exact Or.inr ⟨v2, by rw [h, h2]⟩
      · simp [aerase, h2] at h

end AListTheorems

/-!
## Index lemmas and the matrix consistency invariant
-/

section MatrixInvariantSection

variable {κ1 κ2 γ : Type} [DecidableEq κ1] [DecidableEq κ2]

theorem idxHas_idxAdd (a : κ1) (b : κ2) (x : γ) (m : List (κ1 × List (κ2 × γ)))
    (a2 : κ1) (b2 : κ2) :
    idxHas (idxAdd a b x m) a2 b2 =
      if a2 = a ∧ b2 = b then true else idxHas m a2 b2 := by
  by_cases ha : a2 = a
  · subst ha
    unfold idxHas idxAdd
    rw [alookup_ainsert_self]
    by_cases hb : b2 = b
    · subst hb
      simp [alookup_ainsert_self]
    · simp [alookup_ainsert_ne _ _ hb, hb, idxHas]
  · unfold idxHas idxAdd
    rw [alookup_ainsert_ne _ _ ha]
    simp [ha, idxHas]

theorem nodupKeys_idxAdd (a : κ1) (b : κ2) (x : γ)
    {m : List (κ1 × List (κ2 × γ))} (h : NodupKeys m) :
    NodupKeys (idxAdd a b x m) :=
  nodupKeys_ainsert a _ h

theorem nodupKeys_idxDel (a : κ1) (b : κ2)
    {m : List (κ1 × List (κ2 × γ))} (h : NodupKeys m) :
    NodupKeys (idxDel a b m) := by
  unfold idxDel
  by_cases he : (aerase b ((alookup a m).getD [])).isEmpty
  · simpa [he] using nodupKeys_aerase a h
  · simpa [he] using nodupKeys_ainsert a _ h

theorem innerOk_nodup_getD {m : List (κ1 × List (κ2 × γ))} {a : κ1}
    (h : InnerOk m) : NodupKeys ((alookup a m).getD []) := by
  cases hl : alookup a m with
  | none => simp [NodupKeys, keysOf]
  | some inner => exact (h _ (alookup_mem hl)).1

theorem innerOk_idxAdd (a : κ1) (b : κ2) (x : γ)
    {m : List (κ1 × List (κ2 × γ))} (h : InnerOk m) :
    InnerOk (idxAdd a b x m) := by
  intro p hp
  rcases mem_ainsert hp with hp2 | hp2
  · subst hp2
    exact ⟨nodupKeys_ainsert b x (innerOk_nodup_getD h), ainsert_ne_nil _ _ _⟩
  · exact h _ hp2

theorem innerOk_idxDel (a : κ1) (b : κ2)
    {m : List (κ1 × List (κ2 × γ))} (h : InnerOk m) :
    InnerOk (idxDel a b m) := by
  unfold idxDel
  by_cases he : (aerase b ((alookup a m).getD [])).isEmpty
  · simp only [he, if_pos]
    exact fun p hp => h _ (mem_aerase hp)
  · simp only [he, if_neg, Bool.false_eq_true, not_false_iff]
    intro p hp
    rcases mem_ainsert hp with hp2 | hp2
    · subst hp2
      refine ⟨nodupKeys_aerase b (innerOk_nodup_getD h), fun hnil => he ?_⟩
      rw [List.isEmpty_iff]
      exact hnil
    · exact h _ hp2

theorem idxHas_idxDel (a : κ1) (b : κ2) {m : List (κ1 × List (κ2 × γ))}
    (hm : NodupKeys m) (hin : InnerOk m) (a2 : κ1) (b2 : κ2) :
    idxHas (idxDel a b m) a2 b2 =
      if a2 = a ∧ b2 = b then false else idxHas m a2 b2 := by
  have hinner : NodupKeys ((alookup a m).getD []) := innerOk_nodup_getD hin
  unfold idxDel
  by_cases he : (aerase b ((alookup a m).getD [])).isEmpty
  · simp only [he, if_pos]
    by_cases ha : a2 = a
    · subst ha
      unfold idxHas
      rw [alookup_aerase_self hm]
      by_cases hb : b2 = b
      · simp [hb, alookup]
      · have hbb : ¬b = b2 := fun hh => hb hh.symm
        simp only [hb, and_false, if_false, Option.getD_none]
        rw [List.isEmpty_iff] at he
        rcases aerase_eq_nil he with h0 | ⟨v, h0⟩ <;>
          simp [idxHas, h0, alookup, hbb]
    · unfold idxHas
      rw [alookup_aerase_ne _ ha]
      simp [ha]
  · simp only [he, if_neg, Bool.false_eq_true, not_false_iff]
    by_cases ha : a2 = a
    · subst ha
      unfold idxHas
      rw [alookup_ainsert_self]
      by_cases hb : b2 = b
      · subst hb
        simp [alookup_aerase_self hinner]
      · simp [alookup_aerase_ne _ hb, hb, idxHas]
    · unfold idxHas
      rw [alookup_ainsert_ne _ _ ha]
      simp [ha]

theorem idxDel_of_idxHas_false {m : List (κ1 × List (κ2 × γ))} {a : κ1} {b : κ2}
    (hin : InnerOk m) (h : idxHas m a b = false) : idxDel a b m = m := by
  unfold idxDel
  cases hl : alookup a m with
  | none =>
      simp only [hl, Option.getD_none, aerase]
      simp [aerase_of_alookup_eq_none hl]
  | some inner =>
      have hb : alookup b inner = none := by
        unfold idxHas at h
        rw [hl] at h
        simpa using h
      have hinner2 : aerase b inner = inner := aerase_of_alookup_eq_none hb
      have hne : inner ≠ [] := (hin _ (alookup_mem hl)).2
      simp only [hl, Option.getD_some, hinner2]
      rw [if_neg (by simpa [List.isEmpty_iff] using hne)]
      exact ainsert_of_alookup_eq_some hl

end MatrixInvariantSection

section MatrixStorageInvariant

variable {α K T R C X : Type} [DecidableEq K] [DecidableEq R] [DecidableEq C]
variable (keyOf : T → K) (rowOf : X → R) (colOf : X → C)

theorem matHas_ainsert (a : R) (b : C) (x : X) (m : List ((R × C) × X))
    (r : R) (c : C) :
    matHas (ainsert (a, b) x m) r c =
      if r = a ∧ c = b then true else matHas m r c := by
  by_cases h : r = a ∧ c = b
  · obtain ⟨h1, h2⟩ := h
    subst h1; subst h2
    simp [matHas, alookup_ainsert_self]
  · have hne : (r, c) ≠ (a, b) := by
      intro h2
      exact h (by simpa [Prod.ext_iff] using h2)
    simp [matHas, alookup_ainsert_ne _ _ hne, h]

theorem matHas_aerase (a : R) (b : C) {m : List ((R × C) × X)}
    (hm : NodupKeys m) (r : R) (c : C) :
    matHas (aerase (a, b) m) r c =
      if r = a ∧ c = b then false else matHas m r c := by
  by_cases h : r = a ∧ c = b
  · obtain ⟨h1, h2⟩ := h
    subst h1; subst h2
    simp [matHas, alookup_aerase_self hm]
  · have hne : (r, c) ≠ (a, b) := by
      intro h2
      exact h (by simpa [Prod.ext_iff] using h2)
    simp [matHas, alookup_aerase_ne _ hne, h]

theorem matrixInvariant_DoAdd {s : Storage α K T R C X} (x : X)
    (hs : MatrixInvariant s) : MatrixInvariant (DoAdd rowOf colOf x s) := by
  refine ⟨?_, ?_, ?_, ?_, ?_, ?_, ?_⟩
  · exact nodupKeys_ainsert _ _ hs.mat_nodup
  · exact nodupKeys_idxAdd _ _ _ hs.fwd_nodup
  · exact nodupKeys_idxAdd _ _ _ hs.tr_nodup
  · exact innerOk_idxAdd _ _ _ hs.fwd_inner
  · exact innerOk_idxAdd _ _ _ hs.tr_inner
  · intro r c
    show idxHas (idxAdd (rowOf x) (colOf x) x s.fwd) r c
      = matHas (ainsert (rowOf x, colOf x) x s.mat) r c
    rw [idxHas_idxAdd, matHas_ainsert, hs.fwd_mat r c]
  · intro r c
    show idxHas (idxAdd (colOf x) (rowOf x) x s.transposed) c r
      = matHas (ainsert (rowOf x, colOf x) x s.mat) r c
    rw [idxHas_idxAdd, matHas_ainsert, hs.tr_mat r c]
    by_cases h1 : r = rowOf x <;> by_cases h2 : c = colOf x <;> simp [h1, h2]

theorem matrixInvariant_DoDelete {s : Storage α K T R C X} (r : R) (c : C)
    (hs : MatrixInvariant s) : MatrixInvariant (DoDelete r c s) := by
  refine ⟨?_, ?_, ?_, ?_, ?_, ?_, ?_⟩
  · exact nodupKeys_aerase _ hs.mat_nodup
  · exact nodupKeys_idxDel _ _ hs.fwd_nodup
  · exact nodupKeys_idxDel _ _ hs.tr_nodup
  · exact innerOk_idxDel _ _ hs.fwd_inner
  · exact innerOk_idxDel _ _ hs.tr_inner
  · intro r2 c2
    show idxHas (idxDel r c s.fwd) r2 c2 = matHas (aerase (r, c) s.mat) r2 c2
    rw [idxHas_idxDel _ _ hs.fwd_nodup hs.fwd_inner,
      matHas_aerase _ _ hs.mat_nodup, hs.fwd_mat r2 c2]
  · intro r2 c2
    show idxHas (idxDel c r s.transposed) c2 r2
      = matHas (aerase (r, c) s.mat) r2 c2
    rw [idxHas_idxDel _ _ hs.tr_nodup hs.tr_inner,
      matHas_aerase _ _ hs.mat_nodup, hs.tr_mat r2 c2]
    by_cases h1 : r2 = r <;> by_cases h2 : c2 = c <;> simp [h1, h2]

theorem matrixInvariant_empty : MatrixInvariant (emptyStorage : Storage α K T R C X) := by
  refine ⟨List.nodup_nil, List.nodup_nil, List.nodup_nil, ?_, ?_, ?_, ?_⟩
  · intro p hp
    simp [emptyStorage] at hp
  · intro p hp
    simp [emptyStorage] at hp
  · intro r c
    simp [idxHas, matHas, emptyStorage, alookup]
  · intro r c
    simp [idxHas, matHas, emptyStorage, alookup]

/-- A row key is present in the forward index iff the primary map owns at
least one cell in that row (and symmetrically for columns); this is the
reading of the invariant the spec states for `Rows()`/`Cols()`. -/
theorem rowKey_present_iff {s : Storage α K T R C X} (hs : MatrixInvariant s)
    (r : R) :
    (alookup r s.fwd).isSome = true ↔ ∃ c, matHas s.mat r c = true := by
  constructor
  · intro h
    cases hl : alookup r s.fwd with
    | none => rw [hl] at h; simp at h
    | some inner =>
        obtain ⟨hnodup, hne⟩ := hs.fwd_inner _ (alookup_mem hl)
        cases inner with
        | nil => exact absurd rfl hne
        | cons p rest =>
            obtain ⟨c0, x0⟩ := p
            refine ⟨c0, ?_⟩
            rw [← hs.fwd_mat r c0]
            simp [idxHas, hl, alookup]
  · intro ⟨c, hc⟩
    rw [← hs.fwd_mat r c] at hc
    unfold idxHas at hc
    cases hl : alookup r s.fwd with
    | none => rw [hl] at hc; simp [alookup] at hc
    | some inner => simp

theorem colKey_present_iff {s : Storage α K T R C X} (hs : MatrixInvariant s)
    (c : C) :
    (alookup c s.transposed).isSome = true ↔ ∃ r, matHas s.mat r c = true := by
  constructor
  · intro h
    cases hl : alookup c s.transposed with
    | none => rw [hl] at h; simp at h
    | some inner =>
        obtain ⟨hnodup, hne⟩ := hs.tr_inner _ (alookup_mem hl)
        cases inner with
        | nil => exact absurd rfl hne
        | cons p rest =>
            obtain ⟨r0, x0⟩ := p
            refine ⟨r0, ?_⟩
            rw [← hs.tr_mat r0 c]
            simp [idxHas, hl, alookup]
  · intro ⟨r, hr⟩
    rw [← hs.tr_mat r c] at hr
    unfold idxHas at hr
    cases hl : alookup c s.transposed with
    | none => rw [hl] at hr; simp [alookup] at hr
    | some inner => simp

end MatrixStorageInvariant

/-!
## Replay reconstructs the live state
-/

section Replay

variable {α K T R C X : Type} [DecidableEq K] [DecidableEq R] [DecidableEq C]
variable (keyOf : T → K) (rowOf : X → R) (colOf : X → C)

theorem replay_append (l1 l2 : List (Entry α K T R C X)) (s : Storage α K T R C X) :
    replay keyOf rowOf colOf (l1 ++ l2) s =
      match replay keyOf rowOf colOf l1 s with
      | some u => replay keyOf rowOf colOf l2 u
      | none => none := by
  induction l1 generalizing s with
  | nil => simp [replay]
  | cons e rest ih =>
      simp only [List.cons_append, replay]
      cases replayEntry keyOf rowOf colOf e s with
      | none => rfl
      | some s2 => exact ih s2

theorem runOps_replay (ops : List (Op α K T R C X)) :
    ∀ (s0 s : Storage α K T R C X) (j0 j : List (Entry α K T R C X))
      (t : Storage α K T R C X),
      runOps keyOf rowOf colOf ops s0 j0 = some (s, j) →
      replay keyOf rowOf colOf j0 t = some s0 →
      replay keyOf rowOf colOf j t = some s := by
  induction ops with
  | nil =>
      intro s0 s j0 j t h ht
      simp only [runOps, Option.some.injEq, Prod.mk.injEq] at h
      rw [← h.1, ← h.2]
      exact ht
  | cons op ops ih =>
      intro s0 s j0 j t h ht
      cases op with
      | pushBack x =>
          simp only [runOps, apiStep, if_true] at h
          refine ih _ _ _ _ t h ?_
          rw [replay_append keyOf rowOf colOf j0 _ t, ht]
          simp [replay, replayEntry]
      | popBack =>
          rcases hv : s0.vec with _ | ⟨a, l⟩
          · simp [runOps, apiStep, hv] at h
          · simp only [runOps, apiStep, hv, List.isEmpty_cons, if_false,
              Bool.false_eq_true, if_true] at h
            refine ih _ _ _ _ t h ?_
            rw [replay_append keyOf rowOf colOf j0 _ t, ht]
            simp [replay, replayEntry, hv]
      | insert t2 =>
          simp only [runOps, apiStep, if_true] at h
          refine ih _ _ _ _ t h ?_
          rw [replay_append keyOf rowOf colOf j0 _ t, ht]
          simp [replay, replayEntry]
      | erase k =>
          simp only [runOps, apiStep, if_true] at h
          refine ih _ _ _ _ t h ?_
          rw [replay_append keyOf rowOf colOf j0 _ t, ht]
          simp [replay, replayEntry]
      | add x =>
          simp only [runOps, apiStep, if_true] at h
          refine ih _ _ _ _ t h ?_
          rw [replay_append keyOf rowOf colOf j0 _ t, ht]
          simp [replay, replayEntry]
      | delete r c =>
          simp only [runOps, apiStep, if_true] at h
          refine ih _ _ _ _ t h ?_
          rw [replay_append keyOf rowOf colOf j0 _ t, ht]
          simp [replay, replayEntry]

theorem runOps_vec_length (ops : List (Op α K T R C X)) :
    ∀ (s0 s : Storage α K T R C X) (j0 j : List (Entry α K T R C X)),
      runOps keyOf rowOf colOf ops s0 j0 = some (s, j) →
      s.vec.length + countPops ops = s0.vec.length + countPushes ops := by
  induction ops with
  | nil =>
      intro s0 s j0 j h
      simp only [runOps, Option.some.injEq, Prod.mk.injEq] at h
      simp [← h.1, countPops, countPushes]
  | cons op ops ih =>
      intro s0 s j0 j h
      cases op with
      | pushBack x =>
          simp only [runOps, apiStep, if_true] at h
          have h2 := ih _ s _ j h
          simp only [countPops, countPushes]
          simp at h2
          omega
      | popBack =>
          rcases hv : s0.vec with _ | ⟨a, l⟩
          · simp [runOps, apiStep, hv] at h
          · simp only [runOps, apiStep, hv, List.isEmpty_cons, if_false,
              Bool.false_eq_true, if_true] at h
            have h2 := ih _ s _ j h
            simp only [countPops, countPushes]
            simp [List.length_dropLast] at h2
            simp [hv]
            omega
      | insert t2 =>
          simp only [runOps, apiStep, if_true] at h
          have h2 := ih _ s _ j h
          simpa [countPops, countPushes] using h2
      | erase k =>
          simp only [runOps, apiStep, if_true] at h
          have h2 := ih _ s _ j h
          simpa [countPops, countPushes] using h2
      | add x =>
          simp only [runOps, apiStep, if_true] at h
          have h2 := ih _ s _ j h
          simpa [countPops, countPushes, DoAdd] using h2
      | delete r c =>
          simp only [runOps, apiStep, if_true] at h
          have h2 := ih _ s _ j h
          simpa [countPops, countPushes, DoDelete] using h2

end Replay

/-!
## The claims
-/

section Claims

variable {α K T R C X : Type} [DecidableEq K] [DecidableEq R] [DecidableEq C]
variable (keyOf : T → K) (rowOf : X → R) (colOf : X → C)

/-- C1: a sequence of successful mutating operations performed through a
durable `ReplayFromAndAppendToFile` instance produces a journal whose
replay (`Run()`) into a fresh instance reconstructs the final live
storage state exactly, and the final vector size is pushes minus pops. -/
theorem claim_C1_replay_reconstructs (ops : List (Op α K T R C X))
    (s : Storage α K T R C X) (j : List (Entry α K T R C X))
    (h : runOps keyOf rowOf colOf ops emptyStorage [] = some (s, j)) :
    replay keyOf rowOf colOf j emptyStorage = some s ∧
    s.vec.length + countPops ops = countPushes ops ∧
    s.vec.length = countPushes ops - countPops ops := by
  have h1 := runOps_replay keyOf rowOf colOf ops emptyStorage s [] j
    emptyStorage h rfl
  have h2 := runOps_vec_length keyOf rowOf colOf ops emptyStorage s [] j h
  simp only [emptyStorage, List.length_nil, Nat.zero_add] at h2
  exact ⟨h1, h2, by omega⟩

theorem claim_C1_witness :
    replay wKeyOf wRowOf wColOf wJournalC1 wEmpty
        = some ⟨[7], [], [], [], []⟩ ∧
    (⟨[7], [], [], [], []⟩ : WStorage).vec.length
        = countPushes wOpsC1 - countPops wOpsC1 := by
  have h := claim_C1_replay_reconstructs wKeyOf wRowOf wColOf
    wOpsC1 ⟨[7], [], [], [], []⟩ wJournalC1 (by decide)
  exact ⟨h.1, h.2.2⟩

/-- C2: `PopBack` on an empty vector fails with
`CannotPopBackFromEmptyVectorException`, never invokes the persister
(regardless of whether the persister would succeed) and leaves state and
journal unchanged; on a non-empty vector it persists the removal and then
drops the last element. -/
theorem claim_C2_popBack_contract (persistOk : Bool) (s : Storage α K T R C X)
    (j : List (Entry α K T R C X)) :
    (s.vec = [] →
      apiStep keyOf rowOf colOf persistOk .popBack s j
        = (s, j, .cannotPopBackFromEmptyVector)) ∧
    (s.vec ≠ [] →
      apiStep keyOf rowOf colOf true .popBack s j
        = ({ s with vec := s.vec.dropLast },
           j ++ [.popBackLine s.vec.length], .ok)) := by
  constructor
  · intro hv
    simp [apiStep, hv]
  · intro hv
    have he : s.vec.isEmpty = false := by
      rcases hx : s.vec with _ | ⟨a, l⟩
      · exact absurd hx hv
      · simp
    simp [apiStep, he]

theorem claim_C2_witness :
    apiStep wKeyOf wRowOf wColOf false .popBack wEmpty []
      = (wEmpty, [], .cannotPopBackFromEmptyVector) ∧
    apiStep wKeyOf wRowOf wColOf true .popBack
        (⟨[3], [], [], [], []⟩ : WStorage) []
      = (⟨[], [], [], [], []⟩, [.popBackLine 1], .ok) := by
  have h1 := (claim_C2_popBack_contract wKeyOf wRowOf wColOf false
    wEmpty []).1 rfl
  have h2 := (claim_C2_popBack_contract wKeyOf wRowOf wColOf true
    (⟨[3], [], [], [], []⟩ : WStorage) []).2 (by decide)
  exact ⟨h1, h2⟩

/-- C3: every mutating operation persists before it mutates: a journal
entry is appended exactly when the operation completes `.ok`, and on any
failure (persister throw, or the empty-`PopBack` check that precedes the
persister call) the in-memory storage and the journal are unchanged. -/
theorem claim_C3_persist_iff_success (persistOk : Bool) (op : Op α K T R C X)
    (s : Storage α K T R C X) (j : List (Entry α K T R C X)) :
    ((apiStep keyOf rowOf colOf persistOk op s j).2.2 = .ok ↔
      ∃ e, (apiStep keyOf rowOf colOf persistOk op s j).2.1 = j ++ [e]) ∧
    ((apiStep keyOf rowOf colOf persistOk op s j).2.2 ≠ .ok →
      (apiStep keyOf rowOf colOf persistOk op s j).1 = s ∧
      (apiStep keyOf rowOf colOf persistOk op s j).2.1 = j) := by
  cases op <;> cases persistOk <;>
    simp [apiStep, List.self_eq_append_right] <;>
    rcases hv : s.vec with _ | ⟨a, l⟩ <;>
    simp [List.self_eq_append_right]

theorem claim_C3_witness :
    ((apiStep wKeyOf wRowOf wColOf false (.insert 5) wEmpty []).2.2 = .ok ↔
      ∃ e, (apiStep wKeyOf wRowOf wColOf false (.insert 5) wEmpty []).2.1
        = [] ++ [e]) ∧
    ((apiStep wKeyOf wRowOf wColOf false (.insert 5) wEmpty []).2.2 ≠ .ok →
      (apiStep wKeyOf wRowOf wColOf false (.insert 5) wEmpty []).1 = wEmpty ∧
      (apiStep wKeyOf wRowOf wColOf false (.insert 5) wEmpty []).2.1 = []) :=
  claim_C3_persist_iff_success wKeyOf wRowOf wColOf false (.insert 5) wEmpty []

/-- C4: inserting two records with the same key upserts: the second
overwrites the first (`Get(k) == v2`), the map keeps at most one record
per key, the key is counted once, and the second insert does not change
`Size()`. -/
theorem claim_C4_insert_upsert (m : List (K × T)) (v1 v2 : T) (k : K)
    (h1 : keyOf v1 = k) (h2 : keyOf v2 = k) (hm : NodupKeys m) :
    alookup k (DoInsert keyOf v2 (DoInsert keyOf v1 m)) = some v2 ∧
    NodupKeys (DoInsert keyOf v2 (DoInsert keyOf v1 m)) ∧
    (keysOf (DoInsert keyOf v2 (DoInsert keyOf v1 m))).count k = 1 ∧
    (DoInsert keyOf v2 (DoInsert keyOf v1 m)).length
      = (DoInsert keyOf v1 m).length := by
  subst h1
  simp only [DoInsert, h2]
  have hmem := mem_keysOf_ainsert_self (keyOf v1) v1 m
  refine ⟨alookup_ainsert_self _ _ _,
    nodupKeys_ainsert _ _ (nodupKeys_ainsert _ _ hm), ?_, ?_⟩
  · rw [keysOf_ainsert, if_pos hmem]
    exact List.count_eq_one_of_mem (nodupKeys_ainsert _ _ hm) hmem
  · rw [length_ainsert, if_pos hmem]

theorem claim_C4_witness :
    alookup 1 (DoInsert (Prod.fst : Nat × Nat → Nat) (1, 20)
        (DoInsert Prod.fst (1, 10) [])) = some (1, 20) ∧
    NodupKeys (DoInsert (Prod.fst : Nat × Nat → Nat) (1, 20)
        (DoInsert Prod.fst (1, 10) [])) ∧
    (keysOf (DoInsert (Prod.fst : Nat × Nat → Nat) (1, 20)
        (DoInsert Prod.fst (1, 10) []))).count 1 = 1 ∧
    (DoInsert (Prod.fst : Nat × Nat → Nat) (1, 20)
        (DoInsert Prod.fst (1, 10) [])).length
      = (DoInsert (Prod.fst : Nat × Nat → Nat) (1, 10) []).length :=
  claim_C4_insert_upsert Prod.fst [] (1, 10) (1, 20) 1 rfl rfl List.nodup_nil

/-- C5: `OrderedDictionary::Erase` persists unconditionally — a journal
line is written and the call succeeds even when the key is absent — and
an erase of an absent key leaves the storage unchanged. -/
theorem claim_C5_erase_unconditional (s : Storage α K T R C X)
    (j : List (Entry α K T R C X)) (k : K) :
    (apiStep keyOf rowOf colOf true (.erase k) s j).2.1
      = j ++ [.eraseLine k] ∧
    (apiStep keyOf rowOf colOf true (.erase k) s j).2.2 = .ok ∧
    (alookup k s.dict = none →
      (apiStep keyOf rowOf colOf true (.erase k) s j).1 = s) := by
  refine ⟨by simp [apiStep], by simp [apiStep], ?_⟩
  intro hk
  simp [apiStep, aerase_of_alookup_eq_none hk]

theorem claim_C5_witness :
    (apiStep wKeyOf wRowOf wColOf true (.erase 5) wEmpty []).2.1
      = [] ++ [.eraseLine 5] ∧
    (apiStep wKeyOf wRowOf wColOf true (.erase 5) wEmpty []).2.2 = .ok ∧
    (apiStep wKeyOf wRowOf wColOf true (.erase 5) wEmpty []).1 = wEmpty := by
  have h := claim_C5_erase_unconditional wKeyOf wRowOf wColOf wEmpty [] 5
  exact ⟨h.1, h.2.1, h.2.2 rfl⟩

/-- C6: `Add` and `Delete` preserve the matrix consistency invariant: a
row (column) key is indexed iff it owns a cell, the pair sets reachable
through either index equal the primary map's key set; `Add` then `Delete`
of the same cell leaves `Rows()`/`Cols()` empty of that row and column,
and two `Add`s sharing a row with distinct columns yield one row entry
holding exactly those two columns. -/
theorem claim_C6_matrix_invariant (s : Storage α K T R C X)
    (x x1 x2 : X) (r : R) (c c1 c2 : C) (hs : MatrixInvariant s) :
    MatrixInvariant (DoAdd rowOf colOf x s) ∧
    MatrixInvariant (DoDelete r c s) ∧
    ((alookup r s.fwd).isSome = true ↔ ∃ c0, matHas s.mat r c0 = true) ∧
    ((alookup c s.transposed).isSome = true ↔ ∃ r0, matHas s.mat r0 c = true) ∧
    (∀ r0 c0, idxHas s.fwd r0 c0 = matHas s.mat r0 c0 ∧
      idxHas s.transposed c0 r0 = matHas s.mat r0 c0) ∧
    (rowOf x = r → colOf x = c →
      (DoDelete r c (DoAdd rowOf colOf x
          (emptyStorage : Storage α K T R C X))).fwd
        = ([] : List (R × List (C × X))) ∧
      (DoDelete r c (DoAdd rowOf colOf x
          (emptyStorage : Storage α K T R C X))).transposed
        = ([] : List (C × List (R × X)))) ∧
    (rowOf x1 = r → rowOf x2 = r → colOf x1 = c1 → colOf x2 = c2 → c1 ≠ c2 →
      (DoAdd rowOf colOf x2 (DoAdd rowOf colOf x1
          (emptyStorage : Storage α K T R C X))).fwd
        = [(r, [(c1, x1), (c2, x2)])]) := by
  refine ⟨matrixInvariant_DoAdd rowOf colOf x hs,
    matrixInvariant_DoDelete r c hs,
    rowKey_present_iff hs r, colKey_present_iff hs c,
    fun r0 c0 => ⟨hs.fwd_mat r0 c0, hs.tr_mat r0 c0⟩, ?_, ?_⟩
  · intro hr hc
    subst hr
    subst hc
    constructor <;>
      simp [DoAdd, DoDelete, idxAdd, idxDel, emptyStorage, ainsert, aerase,
        alookup]
  · intro h1 h2 h3 h4 hne
    subst h1
    subst h3
    subst h4
    have hne2 : ¬colOf x1 = colOf x2 := hne
    simp [DoAdd, idxAdd, emptyStorage, ainsert, alookup, h2, hne2]

theorem claim_C6_witness :
    MatrixInvariant (DoAdd wRowOf wColOf (1, 2) wEmpty) ∧
    MatrixInvariant (DoDelete 1 2 wEmpty) ∧
    ((alookup 1 wEmpty.fwd).isSome = true ↔
      ∃ c0, matHas wEmpty.mat 1 c0 = true) ∧
    ((alookup 2 wEmpty.transposed).isSome = true ↔
      ∃ r0, matHas wEmpty.mat r0 2 = true) ∧
    (∀ r0 c0, idxHas wEmpty.fwd r0 c0 = matHas wEmpty.mat r0 c0 ∧
      idxHas wEmpty.transposed c0 r0 = matHas wEmpty.mat r0 c0) ∧
    (wRowOf (1, 2) = 1 → wColOf (1, 2) = 2 →
      (DoDelete 1 2 (DoAdd wRowOf wColOf (1, 2) wEmpty)).fwd
        = ([] : List (Nat × List (Nat × (Nat × Nat)))) ∧
      (DoDelete 1 2 (DoAdd wRowOf wColOf (1, 2) wEmpty)).transposed
        = ([] : List (Nat × List (Nat × (Nat × Nat))))) ∧
    (wRowOf (1, 2) = 1 → wRowOf (1, 3) = 1 → wColOf (1, 2) = 2 →
      wColOf (1, 3) = 3 → (2 : Nat) ≠ 3 →
      (DoAdd wRowOf wColOf (1, 3) (DoAdd wRowOf wColOf (1, 2) wEmpty)).fwd
        = [(1, [(2, (1, 2)), (3, (1, 3))])]) :=
  claim_C6_matrix_invariant wRowOf wColOf wEmpty (1, 2) (1, 2) (1, 3) 1 2 2 3
    matrixInvariant_empty

/-- C10: `LightweightMatrix::Delete` of an absent cell still persists (a
delete journal line is written and the call succeeds), and the storage —
primary map and both index memberships — is unchanged. -/
theorem claim_C10_delete_absent (s : Storage α K T R C X) (r : R) (c : C)
    (j : List (Entry α K T R C X)) (hs : MatrixInvariant s)
    (habs : matHas s.mat r c = false) :
    DoDelete r c s = s ∧
    (apiStep keyOf rowOf colOf true (.delete r c) s j).1 = s ∧
    (apiStep keyOf rowOf colOf true (.delete r c) s j).2.1
      = j ++ [.deleteLine r c] ∧
    (apiStep keyOf rowOf colOf true (.delete r c) s j).2.2 = .ok := by
  have hnone : alookup (r, c) s.mat = none := by
    cases hl : alookup (r, c) s.mat with
    | none => rfl
    | some v =>
        unfold matHas at habs
        rw [hl] at habs
        simp at habs
  have hmat : aerase (r, c) s.mat = s.mat := aerase_of_alookup_eq_none hnone
  have hfwd : idxDel r c s.fwd = s.fwd := by
    refine idxDel_of_idxHas_false hs.fwd_inner ?_
    rw [hs.fwd_mat r c]
    exact habs
  have htr : idxDel c r s.transposed = s.transposed := by
    refine idxDel_of_idxHas_false hs.tr_inner ?_
    rw [hs.tr_mat r c]
    exact habs
  have hdel : DoDelete r c s = s := by
    simp [DoDelete, hmat, hfwd, htr]
  exact ⟨hdel, by simp [apiStep, hdel], by simp [apiStep], by simp [apiStep]⟩

theorem claim_C10_witness :
    DoDelete 1 2 wEmpty = wEmpty ∧
    (apiStep wKeyOf wRowOf wColOf true (.delete 1 2) wEmpty []).1 = wEmpty ∧
    (apiStep wKeyOf wRowOf wColOf true (.delete 1 2) wEmpty []).2.1
      = [] ++ [.deleteLine 1 2] ∧
    (apiStep wKeyOf wRowOf wColOf true (.delete 1 2) wEmpty []).2.2 = .ok :=
  claim_C10_delete_absent wKeyOf wRowOf wColOf wEmpty 1 2 []
    matrixInvariant_empty rfl

end Claims

section LifecycleClaims

variable {P σ : Type}

/-- C7: `Run()` succeeds at most once: a successful `Run` fully replays
the journal through the registered hooks and moves the instance to
appending mode (`run_` set, output file open); a second `Run` on the same
instance hits `assert(!run_)` — a fatal invariant violation. -/
theorem claim_C7_run_exactly_once (i : Instance P σ) (lines : List (Line P))
    (s : σ) (i2 : Instance P σ) (s2 : σ)
    (h : i.Run lines s = some (i2, s2)) :
    dispatchLines lines i.hooks_ s = some s2 ∧
    i2.run_ = true ∧ i2.outputOpen = true ∧
    ∀ (lines2 : List (Line P)) (s3 : σ), i2.Run lines2 s3 = none := by
  unfold Instance.Run at h
  cases hr : i.run_ with
  | true => rw [hr] at h; simp at h
  | false =>
      rw [hr] at h
      cases ho : i.outputOpen with
      | true => rw [ho] at h; simp at h
      | false =>
          rw [ho] at h
          cases hd : dispatchLines lines i.hooks_ s with
          | none => rw [hd] at h; simp at h
          | some s4 =>
              rw [hd] at h
              simp only [Option.some.injEq, Prod.mk.injEq] at h
              obtain ⟨h1, h2⟩ := h
              refine ⟨by rw [h2], by rw [← h1], by rw [← h1], ?_⟩
              intro lines2 s3
              unfold Instance.Run
              rw [← h1]

theorem claim_C7_witness :
    dispatchLines ([] : List (Line Nat))
        (Instance.fresh : Instance Nat Nat).hooks_ 0 = some 0 ∧
    (⟨true, true, []⟩ : Instance Nat Nat).run_ = true ∧
    (⟨true, true, []⟩ : Instance Nat Nat).outputOpen = true ∧
    ∀ (lines2 : List (Line Nat)) (s3 : Nat),
      Instance.Run ⟨true, true, []⟩ lines2 s3 = none :=
  claim_C7_run_exactly_once Instance.fresh [] 0 ⟨true, true, []⟩ 0 rfl

/-- C8: registering a second hook under an already-registered name is a
fatal assertion failure at registration time: the second `RegisterHook`
returns the fatal outcome and the first hook is neither replaced nor
joined by the second. -/
theorem claim_C8_hook_name_collision (i : Instance P σ) (hookName : String)
    (hk hk2 : P → σ → Option σ) (i2 : Instance P σ)
    (h : RegisterHook hookName hk i = some i2) :
    alookup hookName i2.hooks_ = some hk ∧
    RegisterHook hookName hk2 i2 = none := by
  unfold RegisterHook at h
  cases hl : alookup hookName i.hooks_ with
  | some hk3 => rw [hl] at h; simp at h
  | none =>
      rw [hl] at h
      simp only [Option.some.injEq] at h
      constructor
      · rw [← h]
        exact alookup_ainsert_self _ _ _
      · unfold RegisterHook
        rw [← h]
        rw [show alookup hookName
          ({ i with hooks_ := ainsert hookName hk i.hooks_ }
            : Instance P σ).hooks_ = some hk from alookup_ainsert_self _ _ _]

theorem claim_C8_witness :
    alookup wHookName
        (⟨false, false, [(wHookName, constHook)]⟩ : Instance Nat Nat).hooks_
      = some constHook ∧
    RegisterHook wHookName constHook
        (⟨false, false, [(wHookName, constHook)]⟩ : Instance Nat Nat)
      = none :=
  claim_C8_hook_name_collision Instance.fresh wHookName constHook constHook
    ⟨false, false, [(wHookName, constHook)]⟩ rfl

end LifecycleClaims

/-- C9 counterexample: the source performs no construction-time
validation of `TransactionMeta`; a record with `begin_us = 1000`,
`end_us = 500` is constructed successfully — both timestamps stored
verbatim — and violates `end_us >= begin_us`, so the claimed rejection
does not happen. -/
theorem claim_C9_counterexample :
    (mkTransactionMeta 1000 500 []).begin_us = 1000 ∧
    (mkTransactionMeta 1000 500 []).end_us = 500 ∧
    (mkTransactionMeta 1000 500 []).end_us
      < (mkTransactionMeta 1000 500 []).begin_us := by
  refine ⟨rfl, rfl, ?_⟩
  decide

/-- C9 (amended): `TransactionMeta` construction performs no validation —
the fields are stored verbatim, so `end_us < begin_us` is representable;
only the default constructor guarantees `end_us >= begin_us` (it zeroes
both timestamps). -/
theorem claim_C9_no_construction_validation (b e : Int)
    (f : List (String × String)) :
    (mkTransactionMeta b e f).begin_us = b ∧
    (mkTransactionMeta b e f).end_us = e ∧
    (mkTransactionMeta b e f).fields = f ∧
    TransactionMeta.mkDefault.begin_us ≤ TransactionMeta.mkDefault.end_us :=
  ⟨rfl, rfl, rfl, le_refl 0⟩

end CurrentStorage
